import Mathlib

/-
  Formal model of `CrossThreadQueue<T>` from `src/cross_thread_queue.hpp`.

  The queue is a `std::deque<T>` plus a `std::size_t max_count_` bound,
  both guarded by a single mutex.  Since every public operation holds the
  mutex for its whole body, each operation is atomic; we therefore model
  the queue as a pure state `QState` (list of items, front first, plus the
  bound) and each operation as a state transformer.  Operations whose C++
  body can fail to complete (`SetMaxCount(0)`, whose eviction loop pops an
  empty deque — undefined behavior — and `Pop_Must` on an empty queue,
  which sleeps forever while holding the lock) return `Option`.
  `std::size_t` values are modelled by `Nat`; the default bound
  `std::numeric_limits<size_t>::max()` is `2 ^ 64 - 1`.
-/

namespace CrossThreadQueue

/-- The guarded state of a `CrossThreadQueue<T>`: the deque contents
(front of the deque = head of the list) and the capacity bound. -/
structure QState (α : Type) where
  queue : List α
  max_count : Nat
  deriving DecidableEq, Repr

/-- `std::numeric_limits<size_t>::max()` on a 64-bit platform. -/
def SIZE_T_MAX : Nat := 2 ^ 64 - 1

/-- A freshly constructed queue: empty, bound at the default maximum. -/
def initQ (α : Type) : QState α := { queue := [], max_count := SIZE_T_MAX }

variable {α : Type} [DecidableEq α]

/-- `GetMaxCount()`: returns `max_count_`. -/
def GetMaxCount (q : QState α) : Nat := q.max_count

/-- `Size()`: returns `queue_.size()`. -/
def Size (q : QState α) : Nat := q.queue.length

/-- `Full()`: `queue_.size() == max_count_`. -/
def Full (q : QState α) : Bool := Size q == q.max_count

/-- `Empty()`: `queue_.empty()`. -/
def Empty (q : QState α) : Bool := q.queue.isEmpty

/-- The eviction loop of `SetMaxCount`:
`while (queue_.size() >= max_count_) queue_.pop_front();`.
`pop_front` on an empty deque is undefined behavior (reached exactly when
`max_count_ = 0`), modelled as `none`. -/
def evictLoop (maxc : Nat) : List α → Option (List α)
  | [] => if maxc = 0 then none else some []
  | x :: xs =>
      if maxc ≤ xs.length + 1 then evictLoop maxc xs else some (x :: xs)

/-- `SetMaxCount(ic)`: store the new bound, then run the eviction loop. -/
def SetMaxCount (ic : Nat) (q : QState α) : Option (QState α) :=
  (evictLoop ic q.queue).map fun l => { queue := l, max_count := ic }

/-- `Try_Push(const T &t)`: push at the back iff `size < max_count_`;
returns the success flag together with the new state. -/
def Try_Push (t : α) (q : QState α) : Bool × QState α :=
  if q.queue.length < q.max_count then
    (true, { q with queue := q.queue ++ [t] })
  else
    (false, q)

/-- `Try_Push(const std::vector<T> &ts)`: reject when
`ts.size() + queue_.size() > max_count_`; otherwise push every element at
the back.  NOTE: the source returns `false` on both paths. -/
def Try_Push_batch (ts : List α) (q : QState α) : Bool × QState α :=
  if q.max_count < ts.length + q.queue.length then
    (false, q)
  else
    (false, { q with queue := q.queue ++ ts })

/-- `Push(const T &t)`: push at the back unconditionally, then
`if (queue_.size() > max_count_) queue_.pop_front();`. -/
def Push (t : α) (q : QState α) : QState α :=
  let q1 := q.queue ++ [t]
  if q.max_count < q1.length then
    { q with queue := q1.tail }
  else
    { q with queue := q1 }

/-- The loop body of the batch `Push`: for each element, push at the back,
then `if (queue_.size() >= max_count_) queue_.pop_front();`. -/
def pushLoop (maxc : Nat) : List α → List α → List α
  | qs, [] => qs
  | qs, t :: ts =>
      let q1 := qs ++ [t]
      pushLoop maxc (if maxc ≤ q1.length then q1.tail else q1) ts

/-- `Push(const std::vector<T> &ts)`. -/
def Push_batch (ts : List α) (q : QState α) : QState α :=
  { q with queue := pushLoop q.max_count q.queue ts }

/-- `Pop(T *t)`: fail on an empty queue with no mutation; otherwise remove
the front and report it (the reported value is what `*t` receives). -/
def Pop (q : QState α) : Bool × Option α × QState α :=
  match q.queue with
  | [] => (false, none, q)
  | x :: xs => (true, some x, { q with queue := xs })

/-- The copy-out loop of the bulk `Pop`: run `n` times, each time moving
`queue_.front()` into the result and popping it. -/
def popFrontLoop : Nat → List α → List α × List α
  | 0, l => ([], l)
  | _ + 1, [] => ([], [])
  | n + 1, x :: xs =>
      let p := popFrontLoop n xs
      (x :: p.1, p.2)

/-- `Pop(std::size_t num)`: `sz = min(num, queue_.size())`, then move the
first `sz` elements out in order. -/
def Pop_num (num : Nat) (q : QState α) : List α × QState α :=
  let p := popFrontLoop (min num q.queue.length) q.queue
  (p.1, { q with queue := p.2 })

/-- `Pop_Must(T *t)` (deprecated): sleeps in a loop while the queue is
empty — holding the mutex, so no producer can ever insert and the loop
never exits (modelled as `none`); otherwise pops the front. -/
def Pop_Must (q : QState α) : Option (α × QState α) :=
  match q.queue with
  | [] => none
  | x :: xs => some (x, { q with queue := xs })

/-- `Clear()`: `queue_.clear()`. -/
def Clear (q : QState α) : QState α := { q with queue := [] }

/-- The scan of `Erase`: walk from the front, drop the first element `x`
with `t == x`, report whether one was found. -/
def eraseLoop (t : α) : List α → Bool × List α
  | [] => (false, [])
  | x :: xs =>
      if t = x then (true, xs)
      else
        let p := eraseLoop t xs
        (p.1, x :: p.2)

/-- `Erase(const T &t)`. -/
def Erase (t : α) (q : QState α) : Bool × QState α :=
  let p := eraseLoop t q.queue
  (p.1, { q with queue := p.2 })

/-- One public mutating operation of the queue, for reasoning about
arbitrary call sequences. -/
inductive Op (α : Type) where
  | setMaxCount (n : Nat)
  | tryPush (t : α)
  | tryPushBatch (ts : List α)
  | push (t : α)
  | pushBatch (ts : List α)
  | pop
  | popNum (n : Nat)
  | popMust
  | clear
  | erase (t : α)
  deriving DecidableEq, Repr

/-- Run one operation: the successor state together with the items the
operation handed back to the caller (popped items, in the order they came
out).  `none` when the operation never completes (`SetMaxCount 0`,
`Pop_Must` on an empty queue). -/
def run : Op α → QState α → Option (QState α × List α)
  | Op.setMaxCount n, q => (SetMaxCount n q).map fun q1 => (q1, [])
  | Op.tryPush t, q => some ((Try_Push t q).2, [])
  | Op.tryPushBatch ts, q => some ((Try_Push_batch ts q).2, [])
  | Op.push t, q => some (Push t q, [])
  | Op.pushBatch ts, q => some (Push_batch ts q, [])
  | Op.pop, q =>
      let p := Pop q
      some (p.2.2, p.2.1.toList)
  | Op.popNum n, q =>
      let p := Pop_num n q
      some (p.2, p.1)
  | Op.popMust, q => (Pop_Must q).map fun p => (p.2, [p.1])
  | Op.clear, q => some (Clear q, [])
  | Op.erase t, q => some ((Erase t q).2, [])

/-- The items an operation offers for insertion, in order. -/
def pushedOf : Op α → List α
  | Op.tryPush t => [t]
  | Op.tryPushBatch ts => ts
  | Op.push t => [t]
  | Op.pushBatch ts => ts
  | _ => []

/-- Run a sequence of operations, collecting every item popped out, in
order. -/
def runTrace : List (Op α) → QState α → Option (QState α × List α)
  | [], q => some (q, [])
  | op :: ops, q =>
      (run op q).bind fun p =>
        (runTrace ops p.1).map fun p2 => (p2.1, p.2 ++ p2.2)

/-- All items offered for insertion by a sequence of operations. -/
def pushedTrace : List (Op α) → List α
  | [] => []
  | op :: ops => pushedOf op ++ pushedTrace ops

/-! ### Lemmas about the eviction loop of `SetMaxCount` -/

theorem evictLoop_zero (l : List α) : evictLoop 0 l = none := by
  induction l with
  | nil => simp [evictLoop]
  | cons x xs ih =>
      unfold evictLoop
      rw [if_pos (Nat.zero_le _)]
      exact ih

theorem evictLoop_pos (maxc : Nat) (hpos : 0 < maxc) (l : List α) :
    evictLoop maxc l = some (l.drop (l.length + 1 - maxc)) := by
  induction l with
  | nil => simp [evictLoop, Nat.pos_iff_ne_zero.mp hpos]
  | cons x xs ih =>
      unfold evictLoop
      by_cases hc : maxc ≤ xs.length + 1
      · rw [if_pos hc, ih]
        have hlen : (x :: xs).length + 1 - maxc = (xs.length + 1 - maxc) + 1 := by
          simp only [List.length_cons]
          omega
        rw [hlen, List.drop_succ_cons]
      · rw [if_neg hc]
        have hlen : (x :: xs).length + 1 - maxc = 0 := by
          simp only [List.length_cons]
          omega
        rw [hlen, List.drop_zero]

/-! ### Lemmas about the copy-out loop of the bulk `Pop` -/

theorem popFrontLoop_eq (n : Nat) (l : List α) :
    popFrontLoop n l = (l.take n, l.drop n) := by
  induction n generalizing l with
  | zero => simp [popFrontLoop]
  | succ n ih =>
      cases l with
      | nil => simp [popFrontLoop]
      | cons x xs => simp [popFrontLoop, ih]

/-! ### Lemmas about the scan loop of `Erase` -/

theorem eraseLoop_fst_iff (v : α) (l : List α) :
    (eraseLoop v l).1 = true ↔ v ∈ l := by
  induction l with
  | nil => simp [eraseLoop]
  | cons x xs ih =>
      by_cases hx : v = x
      · simp [eraseLoop, hx]
      · simp [eraseLoop, hx, ih]

theorem eraseLoop_of_fst_false (v : α) (l : List α)
    (h : (eraseLoop v l).1 = false) : (eraseLoop v l).2 = l := by
  induction l with
  | nil => simp [eraseLoop]
  | cons x xs ih =>
      by_cases hx : v = x
      · simp [eraseLoop, hx] at h
      · simp only [eraseLoop, if_neg hx] at h ⊢
        rw [ih h]

theorem eraseLoop_of_fst_true (v : α) (l : List α)
    (h : (eraseLoop v l).1 = true) :
    ∃ l₁ l₂, l = l₁ ++ v :: l₂ ∧ v ∉ l₁ ∧ (eraseLoop v l).2 = l₁ ++ l₂ := by
  induction l with
  | nil => simp [eraseLoop] at h
  | cons x xs ih =>
      by_cases hx : v = x
      · refine ⟨[], xs, by simp [hx], by simp, ?_⟩
        simp [eraseLoop, hx]
      · simp only [eraseLoop, if_neg hx] at h ⊢
        obtain ⟨l₁, l₂, hdec, hmem, hsnd⟩ := ih h
        exact ⟨x :: l₁, l₂, by simp [hdec], by simp [hx, hmem], by simp [hsnd]⟩

theorem eraseLoop_snd_sublist (v : α) (l : List α) :
    List.Sublist (eraseLoop v l).2 l := by
  induction l with
  | nil => simp [eraseLoop]
  | cons x xs ih =>
      by_cases hx : v = x
      · rw [eraseLoop, if_pos hx]
        exact List.sublist_cons_self x xs
      · simpa [eraseLoop, hx] using List.Sublist.cons₂ x ih

/-! ### Lemmas about the insertion loop of the batch `Push` -/

theorem pushLoop_nil (maxc : Nat) (qs : List α) : pushLoop maxc qs [] = qs := rfl

theorem pushLoop_sublist (maxc : Nat) (ts qs : List α) :
    List.Sublist (pushLoop maxc qs ts) (qs ++ ts) := by
  induction ts generalizing qs with
  | nil => simp [pushLoop]
  | cons t ts ih =>
      have hstep :
          List.Sublist
            (if maxc ≤ (qs ++ [t]).length then (qs ++ [t]).tail else qs ++ [t])
            (qs ++ [t]) := by
        split
        · exact List.tail_sublist (qs ++ [t])
        · exact List.Sublist.refl _
      have h2 :
          List.Sublist
            ((if maxc ≤ (qs ++ [t]).length then (qs ++ [t]).tail else qs ++ [t]) ++ ts)
            (qs ++ t :: ts) := by
        simpa [List.append_assoc] using hstep.append_right ts
      exact (ih _).trans h2

theorem pushLoop_length_le (maxc : Nat) (ts qs : List α)
    (h : qs.length ≤ maxc) : (pushLoop maxc qs ts).length ≤ maxc := by
  induction ts generalizing qs with
  | nil => simpa [pushLoop] using h
  | cons t ts ih =>
      refine ih _ ?_
      have hlen : (qs ++ [t]).length = qs.length + 1 := by simp
      by_cases hc : maxc ≤ (qs ++ [t]).length
      · rw [if_pos hc, List.length_tail]
        omega
      · rw [if_neg hc]
        omega

theorem pushLoop_append (maxc : Nat) (ts₁ ts₂ qs : List α) :
    pushLoop maxc qs (ts₁ ++ ts₂) = pushLoop maxc (pushLoop maxc qs ts₁) ts₂ := by
  induction ts₁ generalizing qs with
  | nil => rfl
  | cons t ts ih => simp [pushLoop, ih]

/-! ### Per-operation preservation of the capacity bound -/

theorem SetMaxCount_bound (ic : Nat) (q q1 : QState α)
    (h : SetMaxCount ic q = some q1) : Size q1 ≤ GetMaxCount q1 := by
  rcases Nat.eq_zero_or_pos ic with hz | hpos
  · rw [hz] at h
    simp [SetMaxCount, evictLoop_zero] at h
  · rw [SetMaxCount, evictLoop_pos ic hpos] at h
    simp only [Option.map_some', Option.some.injEq] at h
    subst h
    simp only [Size, GetMaxCount, List.length_drop]
    omega

theorem Try_Push_bound (t : α) (q : QState α) (hinv : Size q ≤ GetMaxCount q) :
    Size (Try_Push t q).2 ≤ GetMaxCount (Try_Push t q).2 := by
  rw [Try_Push]
  split
  · next hlt =>
      simp only [Size, GetMaxCount, List.length_append, List.length_singleton]
      omega
  · exact hinv

theorem Try_Push_batch_bound (ts : List α) (q : QState α)
    (hinv : Size q ≤ GetMaxCount q) :
    Size (Try_Push_batch ts q).2 ≤ GetMaxCount (Try_Push_batch ts q).2 := by
  rw [Try_Push_batch]
  split
  · exact hinv
  · next hle =>
      simp only [Size, GetMaxCount, List.length_append]
      omega

theorem Push_bound (t : α) (q : QState α) (hinv : Size q ≤ GetMaxCount q) :
    Size (Push t q) ≤ GetMaxCount (Push t q) := by
  rw [Push]
  split
  · next hgt =>
      simp only [Size, GetMaxCount, List.length_tail, List.length_append,
        List.length_singleton]
      simpa [Size, GetMaxCount] using hinv
  · next hle =>
      simp only [Size, GetMaxCount]
      omega

theorem Push_batch_bound (ts : List α) (q : QState α)
    (hinv : Size q ≤ GetMaxCount q) :
    Size (Push_batch ts q) ≤ GetMaxCount (Push_batch ts q) := by
  simpa [Push_batch, Size, GetMaxCount] using
    pushLoop_length_le q.max_count ts q.queue hinv

theorem Pop_bound (q : QState α) (hinv : Size q ≤ GetMaxCount q) :
    Size (Pop q).2.2 ≤ GetMaxCount (Pop q).2.2 := by
  rw [Pop]
  cases hq : q.queue with
  | nil => exact hinv
  | cons x xs =>
      have := hinv
      simp only [Size, GetMaxCount, hq, List.length_cons] at this ⊢
      omega

theorem Pop_num_bound (num : Nat) (q : QState α)
    (hinv : Size q ≤ GetMaxCount q) :
    Size (Pop_num num q).2 ≤ GetMaxCount (Pop_num num q).2 := by
  simp only [Pop_num, popFrontLoop_eq, Size, GetMaxCount, List.length_drop]
  simp only [Size, GetMaxCount] at hinv
  omega

theorem Pop_Must_bound (q : QState α) (x : α) (q1 : QState α)
    (hinv : Size q ≤ GetMaxCount q) (h : Pop_Must q = some (x, q1)) :
    Size q1 ≤ GetMaxCount q1 := by
  rw [Pop_Must] at h
  cases hq : q.queue with
  | nil => rw [hq] at h; exact Option.noConfusion h
  | cons y ys =>
      rw [hq] at h
      simp only [Option.some.injEq, Prod.mk.injEq] at h
      obtain ⟨-, rfl⟩ := h
      simp only [Size, GetMaxCount, hq, List.length_cons] at hinv ⊢
      omega

theorem Clear_bound (q : QState α) :
    Size (Clear q) ≤ GetMaxCount (Clear q) := by
  simp [Clear, Size, GetMaxCount]

theorem Erase_bound (t : α) (q : QState α) (hinv : Size q ≤ GetMaxCount q) :
    Size (Erase t q).2 ≤ GetMaxCount (Erase t q).2 := by
  have hsub := (eraseLoop_snd_sublist t q.queue).length_le
  simp only [Erase, Size, GetMaxCount] at hinv ⊢
  omega

/-- Every operation that completes preserves `Size ≤ GetMaxCount`. -/
theorem run_preserves_bound (op : Op α) (q q1 : QState α) (out : List α)
    (hinv : Size q ≤ GetMaxCount q) (h : run op q = some (q1, out)) :
    Size q1 ≤ GetMaxCount q1 := by
  cases op with
  | setMaxCount n =>
      simp only [run, Option.map_eq_some'] at h
      obtain ⟨q2, hset, heq⟩ := h
      obtain ⟨rfl, -⟩ := Prod.mk.injEq .. |>.mp heq
      exact SetMaxCount_bound n q _ hset
  | tryPush t =>
      simp only [run, Option.some.injEq, Prod.mk.injEq] at h
      obtain ⟨rfl, -⟩ := h
      exact Try_Push_bound t q hinv
  | tryPushBatch ts =>
      simp only [run, Option.some.injEq, Prod.mk.injEq] at h
      obtain ⟨rfl, -⟩ := h
      exact Try_Push_batch_bound ts q hinv
  | push t =>
      simp only [run, Option.some.injEq, Prod.mk.injEq] at h
      obtain ⟨rfl, -⟩ := h
      exact Push_bound t q hinv
  | pushBatch ts =>
      simp only [run, Option.some.injEq, Prod.mk.injEq] at h
      obtain ⟨rfl, -⟩ := h
      exact Push_batch_bound ts q hinv
  | pop =>
      simp only [run, Option.some.injEq, Prod.mk.injEq] at h
      obtain ⟨rfl, -⟩ := h
      exact Pop_bound q hinv
  | popNum n =>
      simp only [run, Option.some.injEq, Prod.mk.injEq] at h
      obtain ⟨rfl, -⟩ := h
      exact Pop_num_bound n q hinv
  | popMust =>
      simp only [run, Option.map_eq_some'] at h
      obtain ⟨⟨x, q2⟩, hpm, heq⟩ := h
      obtain ⟨rfl, -⟩ := Prod.mk.injEq .. |>.mp heq
      exact Pop_Must_bound q x _ hinv hpm
  | clear =>
      simp only [run, Option.some.injEq, Prod.mk.injEq] at h
      obtain ⟨rfl, -⟩ := h
      exact Clear_bound q
  | erase t =>
      simp only [run, Option.some.injEq, Prod.mk.injEq] at h
      obtain ⟨rfl, -⟩ := h
      exact Erase_bound t q hinv

/-- The capacity-bound invariant holds after every completed trace. -/
theorem runTrace_bound (ops : List (Op α)) :
    ∀ (q q2 : QState α) (outs : List α), Size q ≤ GetMaxCount q →
      runTrace ops q = some (q2, outs) → Size q2 ≤ GetMaxCount q2 := by
  induction ops with
  | nil =>
      intro q q2 outs hinv h
      simp only [runTrace, Option.some.injEq, Prod.mk.injEq] at h
      obtain ⟨rfl, -⟩ := h
      exact hinv
  | cons op ops ih =>
      intro q q2 outs hinv h
      simp only [runTrace, Option.bind_eq_some, Option.map_eq_some'] at h
      obtain ⟨⟨q1, out⟩, hrun, ⟨q3, outs2⟩, htr, heq⟩ := h
      obtain ⟨rfl, -⟩ := Prod.mk.injEq .. |>.mp heq
      exact ih q1 q3 outs2 (run_preserves_bound op q q1 out hinv hrun) htr

/-! ### Per-operation order preservation -/

/-- One completed operation only removes items from, or appends its own
pushed items behind, the stored sequence: the popped-out items followed by
the remaining queue form an order-preserving subsequence of the old queue
followed by the items offered for insertion. -/
theorem run_out_sublist (op : Op α) (q q1 : QState α) (out : List α)
    (h : run op q = some (q1, out)) :
    List.Sublist (out ++ q1.queue) (q.queue ++ pushedOf op) := by
  cases op with
  | setMaxCount n =>
      simp only [run, Option.map_eq_some'] at h
      obtain ⟨q2, hset, heq⟩ := h
      obtain ⟨rfl, rfl⟩ := Prod.mk.injEq .. |>.mp heq
      rcases Nat.eq_zero_or_pos n with hz | hpos
      · rw [hz] at hset
        simp [SetMaxCount, evictLoop_zero] at hset
      · rw [SetMaxCount, evictLoop_pos n hpos] at hset
        simp only [Option.map_some', Option.some.injEq] at hset
        subst hset
        simpa [pushedOf] using List.drop_sublist _ q.queue
  | tryPush t =>
      simp only [run, Option.some.injEq, Prod.mk.injEq] at h
      obtain ⟨rfl, rfl⟩ := h
      simp only [pushedOf, List.nil_append]
      rw [Try_Push]
      split
      · exact List.Sublist.refl _
      · exact List.sublist_append_left q.queue [t]
  | tryPushBatch ts =>
      simp only [run, Option.some.injEq, Prod.mk.injEq] at h
      obtain ⟨rfl, rfl⟩ := h
      simp only [pushedOf, List.nil_append]
      rw [Try_Push_batch]
      split
      · exact List.sublist_append_left q.queue ts
      · exact List.Sublist.refl _
  | push t =>
      simp only [run, Option.some.injEq, Prod.mk.injEq] at h
      obtain ⟨rfl, rfl⟩ := h
      simp only [pushedOf, List.nil_append]
      rw [Push]
      split
      · exact List.tail_sublist (q.queue ++ [t])
      · exact List.Sublist.refl _
  | pushBatch ts =>
      simp only [run, Option.some.injEq, Prod.mk.injEq] at h
      obtain ⟨rfl, rfl⟩ := h
      simpa [pushedOf, Push_batch] using
        pushLoop_sublist q.max_count ts q.queue
  | pop =>
      simp only [run, Option.some.injEq, Prod.mk.injEq] at h
      obtain ⟨rfl, rfl⟩ := h
      rw [Pop]
      cases hq : q.queue with
      | nil => simp [pushedOf, hq]
      | cons x xs => simp [pushedOf, hq]
  | popNum n =>
      simp only [run, Option.some.injEq, Prod.mk.injEq] at h
      obtain ⟨rfl, rfl⟩ := h
      simp only [pushedOf, Pop_num, popFrontLoop_eq, List.append_nil,
        List.take_append_drop]
      exact List.Sublist.refl _
  | popMust =>
      simp only [run, Option.map_eq_some'] at h
      obtain ⟨⟨x, q2⟩, hpm, heq⟩ := h
      obtain ⟨rfl, rfl⟩ := Prod.mk.injEq .. |>.mp heq
      rw [Pop_Must] at hpm
      cases hq : q.queue with
      | nil => rw [hq] at hpm; exact Option.noConfusion hpm
      | cons y ys =>
          rw [hq] at hpm
          simp only [Option.some.injEq, Prod.mk.injEq] at hpm
          obtain ⟨rfl, rfl⟩ := hpm
          simp [pushedOf, hq]
  | clear =>
      simp only [run, Option.some.injEq, Prod.mk.injEq] at h
      obtain ⟨rfl, rfl⟩ := h
      simp [pushedOf, Clear]
  | erase t =>
      simp only [run, Option.some.injEq, Prod.mk.injEq] at h
      obtain ⟨rfl, rfl⟩ := h
      simpa [pushedOf, Erase] using eraseLoop_snd_sublist t q.queue

/-- Trace-level order preservation: the items popped out over a whole
trace, followed by the items still stored, form an order-preserving
subsequence of the initial contents followed by all items offered for
insertion. -/
theorem runTrace_sublist (ops : List (Op α)) :
    ∀ (q q2 : QState α) (outs : List α),
      runTrace ops q = some (q2, outs) →
      List.Sublist (outs ++ q2.queue) (q.queue ++ pushedTrace ops) := by
  induction ops with
  | nil =>
      intro q q2 outs h
      simp only [runTrace, Option.some.injEq, Prod.mk.injEq] at h
      obtain ⟨rfl, rfl⟩ := h
      simp [pushedTrace]
  | cons op ops ih =>
      intro q q2 outs h
      simp only [runTrace, Option.bind_eq_some, Option.map_eq_some'] at h
      obtain ⟨⟨q1, out⟩, hrun, ⟨q3, outs2⟩, htr, heq⟩ := h
      obtain ⟨rfl, rfl⟩ := Prod.mk.injEq .. |>.mp heq
      have hstep := run_out_sublist op q q1 out hrun
      have hih := ih q1 q3 outs2 htr
      have h1 : List.Sublist ((out ++ outs2) ++ q3.queue)
          (out ++ (q1.queue ++ pushedTrace ops)) := by
        rw [List.append_assoc]
        exact hih.append_left out
      have h2 : List.Sublist (out ++ (q1.queue ++ pushedTrace ops))
          (q.queue ++ (pushedOf op ++ pushedTrace ops)) := by
        rw [← List.append_assoc, ← List.append_assoc]
        exact hstep.append_right _
      simpa [pushedTrace] using h1.trans h2

/-! ### Claim theorems -/

/-- Claim C1: the batch `Try_Push` does insert the whole batch at the back
exactly when `Size() + ts.size() <= GetMaxCount()` and mutates nothing
otherwise, but its boolean return value does NOT signal acceptance: the
source returns `false` on both paths (contradicting its own doc comment
`true for pushed false for failed`).  At the concrete input below the
batch is inserted, yet the call reports `false`; the final conjunct shows
the result is `false` for every input. -/
theorem c1_try_push_batch_reports_false :
    (Try_Push_batch [7] { queue := ([] : List Nat), max_count := 5 }).2.queue = [7]
    ∧ (Try_Push_batch [7] { queue := ([] : List Nat), max_count := 5 }).1 = false
    ∧ ∀ (ts : List Nat) (q : QState Nat), (Try_Push_batch ts q).1 = false := by
  refine ⟨rfl, rfl, ?_⟩
  intro ts q
  rw [Try_Push_batch]
  split <;> rfl

/-- Claim C2, counterexample: with one stored item and `SetMaxCount(1)`,
the current size (1) does not exceed the new bound (1), so the claim says
the stored sequence is unchanged; the eviction loop `while (size >=
max_count)` nevertheless evicts the item. -/
theorem c2_counterexample :
    ¬ ((SetMaxCount 1 { queue := [0], max_count := 10 }).map QState.queue
        = some [0]) := by decide

/-- Claim C2, amended: for `n > 0`, `SetMaxCount(n)` sets the bound to `n`
and evicts oldest items iff the current size is AT LEAST `n` (not only
when it exceeds `n`), evicting until size < n; the stored sequence is
unchanged iff the current size is strictly below `n`. -/
theorem c2_set_max_count_amended (q : QState α) (n : Nat) (hpos : 0 < n) :
    SetMaxCount n q
        = some { queue := q.queue.drop (q.queue.length + 1 - n), max_count := n }
    ∧ (Size q < n → q.queue.drop (q.queue.length + 1 - n) = q.queue)
    ∧ (n ≤ Size q → (q.queue.drop (q.queue.length + 1 - n)).length = n - 1) := by
  refine ⟨?_, ?_, ?_⟩
  · rw [SetMaxCount, evictLoop_pos n hpos]
    rfl
  · intro h
    have hz : q.queue.length + 1 - n = 0 := by
      simp only [Size] at h
      omega
    rw [hz, List.drop_zero]
  · intro h
    simp only [Size] at h
    rw [List.length_drop]
    omega

/-- Witness for the amended claim C2 at `n = 2` on a three-item queue. -/
theorem c2_amended_witness :
    SetMaxCount 2 { queue := [5, 6, 7], max_count := 9 }
        = some { queue := ([7] : List Nat), max_count := 2 }
    ∧ (([5, 6, 7] : List Nat).drop (3 + 1 - 2)).length = 2 - 1 := by
  have h := c2_set_max_count_amended { queue := [5, 6, 7], max_count := 9 } 2 (by decide)
  exact ⟨h.1, h.2.2 (by decide)⟩

/-- Claim C3: the spec says `SetMaxCount` terminates for every argument and
`SetMaxCount(0)` drives `Size()` to 0, but in the source the eviction loop
condition `queue_.size() >= max_count_` is always true when `max_count_ =
0` (`size_t` is unsigned), so the loop pops an empty deque — undefined
behavior — and the call never completes normally on ANY starting state. -/
theorem c3_set_max_count_zero_diverges (q : QState α) :
    SetMaxCount 0 q = none := by
  simp [SetMaxCount, evictLoop_zero]

/-- Claim C4: starting from a freshly constructed queue, after every
completed sequence of mutating operations, `Size() <= GetMaxCount()`. -/
theorem c4_size_le_max_count (ops : List (Op α)) (q2 : QState α) (outs : List α)
    (h : runTrace ops (initQ α) = some (q2, outs)) :
    Size q2 ≤ GetMaxCount q2 := by
  refine runTrace_bound ops (initQ α) q2 outs ?_ h
  simp [initQ, Size, GetMaxCount]

/-- Witness for claim C4: a concrete trace that overflows a bound of 3 and
then drains. -/
theorem c4_witness :
    Size { queue := ([] : List Nat), max_count := 3 }
      ≤ GetMaxCount { queue := ([] : List Nat), max_count := 3 } :=
  c4_size_le_max_count
    [Op.setMaxCount 3, Op.push 1, Op.push 2, Op.push 3, Op.push 4,
      Op.popNum 2, Op.pop]
    { queue := [], max_count := 3 } [2, 3, 4] (by decide)

/-- Claim C5 (strict FIFO): over any completed trace from a fresh queue,
the items handed out by the pop operations, in the order they came out,
followed by the items still stored, form an order-preserving subsequence
of all items offered for insertion, in the order they were pushed: no
operation ever reorders or duplicates surviving items, and `Pop` yields
them in push order. -/
theorem c5_fifo_order (ops : List (Op α)) (q2 : QState α) (outs : List α)
    (h : runTrace ops (initQ α) = some (q2, outs)) :
    List.Sublist (outs ++ q2.queue) (pushedTrace ops) := by
  have hs := runTrace_sublist ops (initQ α) q2 outs h
  simpa [initQ] using hs

/-- Witness for claim C5 on a concrete trace: pushes 1,2,3,4 under bound 3
(evicting 1), then pops everything, yielding 2,3,4 in push order. -/
theorem c5_witness :
    List.Sublist ([2, 3, 4] : List Nat)
      (pushedTrace [Op.setMaxCount 3, Op.push 1, Op.push 2, Op.push 3,
        Op.push 4, Op.popNum 2, Op.pop]) :=
  c5_fifo_order
    [Op.setMaxCount 3, Op.push 1, Op.push 2, Op.push 3, Op.push 4,
      Op.popNum 2, Op.pop]
    { queue := [], max_count := 3 } [2, 3, 4] (by decide)

/-- Claim C6: `Push(t)` never fails, always inserts `t` at the back, and
evicts exactly one oldest item afterwards iff the insertion leaves the
size above `max_count`; on a full queue the oldest item is removed, `t`
is appended, and the size stays at the bound. -/
theorem c6_push_spec (q : QState α) (t : α) :
    GetMaxCount (Push t q) = GetMaxCount q
    ∧ (Size q < GetMaxCount q → (Push t q).queue = q.queue ++ [t])
    ∧ (GetMaxCount q ≤ Size q →
        (Push t q).queue = (q.queue ++ [t]).tail ∧ Size (Push t q) = Size q)
    ∧ (Size q = GetMaxCount q → Size (Push t q) = GetMaxCount q)
    ∧ (∀ y ys, q.queue = y :: ys → Size q = GetMaxCount q →
        (Push t q).queue = ys ++ [t]) := by
  have hlen : (q.queue ++ [t]).length = q.queue.length + 1 := by simp
  refine ⟨?_, ?_, ?_, ?_, ?_⟩
  · rw [Push]
    split <;> rfl
  · intro h
    simp only [Size, GetMaxCount] at h
    rw [Push, if_neg (by omega)]
  · intro h
    simp only [Size, GetMaxCount] at h
    constructor
    · rw [Push, if_pos (by omega)]
    · simp only [Size]
      rw [Push, if_pos (by omega)]
      simp only [List.length_tail, hlen]
      omega
  · intro h
    simp only [Size, GetMaxCount] at h ⊢
    rw [Push, if_pos (by omega)]
    simp only [List.length_tail, hlen]
    omega
  · intro y ys hq h
    simp only [Size, GetMaxCount] at h
    rw [Push, if_pos (by omega)]
    simp [hq]

/-- Witness for claim C6 on a full two-item queue: the oldest item 10 is
evicted, 12 is appended, the size stays at the bound 2. -/
theorem c6_witness :
    (Push 12 { queue := [10, 11], max_count := 2 }).queue = [11, 12]
    ∧ Size (Push 12 { queue := [10, 11], max_count := 2 }) = 2 := by
  have h := c6_push_spec { queue := [10, 11], max_count := 2 } 12
  exact ⟨h.2.2.2.2 10 [11] rfl (by decide), h.2.2.2.1 (by decide)⟩

/-- Claim C7: the bulk `Pop(n)` never blocks (it is a total function of
the state), removes and returns exactly `min(n, Size())` front items in
FIFO order, and the size decreases by exactly the number of items
returned; the bound is untouched. -/
theorem c7_pop_num_spec (q : QState α) (n : Nat) :
    (Pop_num n q).1 = q.queue.take (min n (Size q))
    ∧ (Pop_num n q).2.queue = q.queue.drop (min n (Size q))
    ∧ (Pop_num n q).1.length = min n (Size q)
    ∧ Size (Pop_num n q).2 = Size q - (Pop_num n q).1.length
    ∧ GetMaxCount (Pop_num n q).2 = GetMaxCount q := by
  refine ⟨?_, ?_, ?_, ?_, rfl⟩
  · simp [Pop_num, popFrontLoop_eq, Size]
  · simp [Pop_num, popFrontLoop_eq, Size]
  · simp only [Pop_num, popFrontLoop_eq, Size, List.length_take]
    omega
  · simp only [Pop_num, popFrontLoop_eq, Size, List.length_take,
      List.length_drop]
    omega

/-- Claim C8: the batch `Push` never fails and processes its items one at
a time, left to right; each single step appends the item at the back and
then evicts the single oldest item iff the insertion left the size
greater than or equal to `max_count` (note `>=`, unlike the single-item
`Push`); the bound is untouched. -/
theorem c8_push_batch_spec (q : QState α) (t : α) (ts : List α) :
    Push_batch [] q = q
    ∧ Push_batch (t :: ts) q = Push_batch ts (Push_batch [t] q)
    ∧ (Push_batch [t] q).queue =
        (if GetMaxCount q ≤ Size q + 1 then (q.queue ++ [t]).tail
          else q.queue ++ [t])
    ∧ GetMaxCount (Push_batch ts q) = GetMaxCount q := by
  refine ⟨rfl, ?_, ?_, rfl⟩
  · show ({ q with queue := pushLoop q.max_count q.queue (t :: ts) } : QState α) = _
    rw [show (t :: ts) = [t] ++ ts from rfl, pushLoop_append]
    rfl
  · show pushLoop q.max_count q.queue [t] = _
    rw [pushLoop, pushLoop_nil]
    have hlen : (q.queue ++ [t]).length = Size q + 1 := by simp [Size]
    rw [hlen]
    rfl

/-- Claim C9: `Erase(v)` scans from the front, removes exactly the first
item equal to `v` (items before it do not match), returns `true` iff a
match was found, decreases the size by exactly one on success, and leaves
the queue untouched on failure; the bound is untouched. -/
theorem c9_erase_spec (q : QState α) (v : α) :
    ((Erase v q).1 = true ↔ v ∈ q.queue)
    ∧ ((Erase v q).1 = false → Erase v q = (false, q))
    ∧ ((Erase v q).1 = true →
        ∃ l₁ l₂, q.queue = l₁ ++ v :: l₂ ∧ v ∉ l₁
          ∧ (Erase v q).2.queue = l₁ ++ l₂
          ∧ Size (Erase v q).2 + 1 = Size q)
    ∧ GetMaxCount (Erase v q).2 = GetMaxCount q := by
  refine ⟨eraseLoop_fst_iff v q.queue, ?_, ?_, rfl⟩
  · intro h
    have hsnd := eraseLoop_of_fst_false v q.queue h
    show ((eraseLoop v q.queue).1, ({ q with queue := (eraseLoop v q.queue).2 } : QState α))
        = (false, q)
    rw [hsnd]
    have hfst : (eraseLoop v q.queue).1 = false := h
    rw [hfst]
  · intro h
    obtain ⟨l₁, l₂, hdec, hmem, hsnd⟩ := eraseLoop_of_fst_true v q.queue h
    refine ⟨l₁, l₂, hdec, hmem, hsnd, ?_⟩
    show (eraseLoop v q.queue).2.length + 1 = q.queue.length
    rw [hsnd, hdec]
    simp only [List.length_append, List.length_cons]
    omega

/-- Witness for claim C9: erasing an absent value changes nothing and
reports `false`. -/
theorem c9_witness :
    Erase 9 { queue := [1, 2, 3], max_count := 5 }
      = (false, { queue := [1, 2, 3], max_count := 5 }) := by
  have h := c9_erase_spec { queue := [1, 2, 3], max_count := 5 } 9
  exact h.2.1 (by decide)

/-- Claim C10: every completed operation other than `SetMaxCount` leaves
the capacity bound unchanged (the read-only queries are pure functions of
the state in this model and mutate nothing by construction). -/
theorem c10_frame_max_count (op : Op α) (q q1 : QState α) (out : List α)
    (hop : ∀ n, op ≠ Op.setMaxCount n)
    (h : run op q = some (q1, out)) :
    GetMaxCount q1 = GetMaxCount q := by
  cases op with
  | setMaxCount n => exact absurd rfl (hop n)
  | tryPush t =>
      simp only [run, Option.some.injEq, Prod.mk.injEq] at h
      obtain ⟨rfl, -⟩ := h
      rw [Try_Push]
      split <;> rfl
  | tryPushBatch ts =>
      simp only [run, Option.some.injEq, Prod.mk.injEq] at h
      obtain ⟨rfl, -⟩ := h
      rw [Try_Push_batch]
      split <;> rfl
  | push t =>
      simp only [run, Option.some.injEq, Prod.mk.injEq] at h
      obtain ⟨rfl, -⟩ := h
      rw [Push]
      split <;> rfl
  | pushBatch ts =>
      simp only [run, Option.some.injEq, Prod.mk.injEq] at h
      obtain ⟨rfl, -⟩ := h
      rfl
  | pop =>
      simp only [run, Option.some.injEq, Prod.mk.injEq] at h
      obtain ⟨rfl, -⟩ := h
      rw [Pop]
      cases q.queue <;> rfl
  | popNum n =>
      simp only [run, Option.some.injEq, Prod.mk.injEq] at h
      obtain ⟨rfl, -⟩ := h
      rfl
  | popMust =>
      simp only [run, Option.map_eq_some'] at h
      obtain ⟨⟨x, q2⟩, hpm, heq⟩ := h
      obtain ⟨rfl, -⟩ := Prod.mk.injEq .. |>.mp heq
      rw [Pop_Must] at hpm
      cases hq : q.queue with
      | nil => rw [hq] at hpm; exact Option.noConfusion hpm
      | cons y ys =>
          rw [hq] at hpm
          simp only [Option.some.injEq, Prod.mk.injEq] at hpm
          obtain ⟨-, rfl⟩ := hpm
          rfl
  | clear =>
      simp only [run, Option.some.injEq, Prod.mk.injEq] at h
      obtain ⟨rfl, -⟩ := h
      rfl
  | erase t =>
      simp only [run, Option.some.injEq, Prod.mk.injEq] at h
      obtain ⟨rfl, -⟩ := h
      rfl

/-- Witness for claim C10: a completed single-item `Pop` keeps the bound. -/
theorem c10_witness :
    GetMaxCount { queue := ([] : List Nat), max_count := 5 }
      = GetMaxCount { queue := ([1] : List Nat), max_count := 5 } :=
  c10_frame_max_count Op.pop { queue := [1], max_count := 5 }
    { queue := [], max_count := 5 } [1]
    (fun n h => Op.noConfusion h) (by decide)

end CrossThreadQueue
